import Mathlib

/-!
# Verification of the hetionet-analysis combination / chunking / fetch pipeline

Shallow embedding of the core of the `hetionet-analysis` repository:

* `src/hetionet_utils/combination.py` — cross-product generation and chunking
  (`generate_combinations_for_bioprocs_genes_and_metapaths`,
  `process_in_chunks_for_bioprocs_genes_and_metapaths`);
* `src/hetionet_utils/database.py` — the `HetionetNeo4j` client
  (`get_id_from_identifer`, `get_metapath_data`), with the Cypher query and the
  pandas DataFrame operations modelled explicitly;
* the notebook-style driver
  `src/bioprocess_metapath_to_gene_pval_and_dwpc/gather_subset_data_metapath_BPpGdAdG.py`
  (chunk processing loop, joblib parallel dispatch, lancedb result sink).

Python values that flow through the chunker are modelled by `PyVal`
(`None`, `str`, `int`), Python exceptions by `PyError`, and fallible Python
code by `Except PyError`.
-/

namespace Hetionet

/-- Python exceptions / error classes relevant to the embedded code.
`zeroDivisionError` is raised by `%` with a zero divisor, `indexError` by
indexing an empty list, `keyError` by a failed pandas column lookup,
`schemaMismatch` by the result sink on a schema disagreement. -/
inductive PyError where
  | zeroDivisionError
  | indexError
  | keyError
  | schemaMismatch
deriving DecidableEq, Repr

/-- A Python value as it appears in the id columns of the input tables:
`None`, a string, or an integer. -/
inductive PyVal where
  | vNone
  | vStr (s : String)
  | vInt (n : Int)
deriving DecidableEq, Repr

/-- `str(x) if x is not None else ""` from
`process_in_chunks_for_bioprocs_genes_and_metapaths`. -/
def pyToStr : PyVal → String
  | .vNone => ""
  | .vStr s => s
  | .vInt n => toString n

/-- A combination triple as produced by the generator (Python values). -/
abbrev PyTriple := PyVal × PyVal × PyVal

/-- A combination triple after string coercion inside the chunker. -/
abbrev StrTriple := String × String × String

/-- Componentwise coercion `tuple(str(x) if x is not None else "" for x in combo)`. -/
def pyTripleToStr (t : PyTriple) : StrTriple :=
  (pyToStr t.1, pyToStr t.2.1, pyToStr t.2.2)

/-- `generate_combinations_for_bioprocs_genes_and_metapaths` from
`hetionet_utils/combination.py`: `itertools.product` over the `id` column of
the bioprocess table, the `id` column of the gene table and the `metapath`
column of the metapath table (each given here as the result of `to_pylist()`).
`product` iterates the first collection outermost and the last innermost. -/
def generate_combinations_for_bioprocs_genes_and_metapaths
    (bioprocess_ids : List α) (gene_ids : List β) (metapaths : List γ) :
    List (α × β × γ) :=
  bioprocess_ids.flatMap fun b => gene_ids.flatMap fun g => metapaths.map fun m => (b, g, m)

/-! ## Generic indexing lemmas for `bind` over constant-length blocks -/

theorem length_bind_const {l : List α} {f : α → List β} {c : Nat}
    (hf : ∀ x ∈ l, (f x).length = c) : (l.flatMap f).length = l.length * c := by
  induction l with
  | nil => simp
  | cons x xs ih =>
    simp only [List.flatMap_cons, List.length_append, List.length_cons]
    rw [hf x (List.mem_cons_self x xs), ih (fun y hy => hf y (List.mem_cons_of_mem x hy))]
    ring

theorem getElem?_bind_const {l : List α} {f : α → List β} {c : Nat}
    (hf : ∀ x ∈ l, (f x).length = c) (a j : Nat) (ha : a < l.length) (hj : j < c) :
    (l.flatMap f)[a * c + j]? = (f (l.get ⟨a, ha⟩))[j]? := by
  induction l generalizing a with
  | nil => simp at ha
  | cons x xs ih =>
    cases a with
    | zero =>
      have hx : (f x).length = c := hf x (List.mem_cons_self x xs)
      simp only [List.flatMap_cons, Nat.zero_mul, Nat.zero_add, List.get]
      rw [List.getElem?_append_left (by omega)]
    | succ a =>
      have hx : (f x).length = c := hf x (List.mem_cons_self x xs)
      have ha' : a < xs.length := by simpa using ha
      have hidx : (f x).length ≤ (a + 1) * c + j := by
        rw [hx]; calc c ≤ (a + 1) * c := Nat.le_mul_of_pos_left c (Nat.succ_pos a)
          _ ≤ (a + 1) * c + j := Nat.le_add_right _ _
      simp only [List.flatMap_cons]
      rw [List.getElem?_append_right hidx, hx]
      have harith : (a + 1) * c + j - c = a * c + j := by
        rw [Nat.succ_mul]; omega
      rw [harith, ih (fun y hy => hf y (List.mem_cons_of_mem x hy)) a ha']
      rfl

theorem length_inner_product (gs : List β) (ms : List γ) (b : α) :
    ((fun b => gs.flatMap fun g => ms.map fun m => (b, g, m)) b).length
      = gs.length * ms.length := by
  exact length_bind_const (fun g _ => by simp)

/-- **C1.** The combination generator yields exactly `m * n * k` triples; the
triple at flattened index `a * n * k + b * k + c` is
`(sources[a], targets[b], metapaths[c])`; any empty input collection yields
the empty sequence. -/
theorem generate_combinations_indexed_cross_product
    (bs : List α) (gs : List β) (ms : List γ) :
    (generate_combinations_for_bioprocs_genes_and_metapaths bs gs ms).length
        = bs.length * gs.length * ms.length
    ∧ (∀ (a b c : Nat) (ha : a < bs.length) (hb : b < gs.length) (hc : c < ms.length),
        (generate_combinations_for_bioprocs_genes_and_metapaths bs gs ms)[
            a * gs.length * ms.length + b * ms.length + c]?
          = some (bs.get ⟨a, ha⟩, gs.get ⟨b, hb⟩, ms.get ⟨c, hc⟩))
    ∧ generate_combinations_for_bioprocs_genes_and_metapaths ([] : List α) gs ms = []
    ∧ generate_combinations_for_bioprocs_genes_and_metapaths bs ([] : List β) ms = []
    ∧ generate_combinations_for_bioprocs_genes_and_metapaths bs gs ([] : List γ) = [] := by
  refine ⟨?_, ?_, ?_, ?_, ?_⟩
  · unfold generate_combinations_for_bioprocs_genes_and_metapaths
    rw [length_bind_const (c := gs.length * ms.length)
      (fun b _ => length_inner_product gs ms b)]
    ring
  · intro a b c ha hb hc
    unfold generate_combinations_for_bioprocs_genes_and_metapaths
    have houter :
        (bs.flatMap fun b => gs.flatMap fun g => ms.map fun m => (b, g, m))[
            a * (gs.length * ms.length) + (b * ms.length + c)]?
          = ((fun b => gs.flatMap fun g => ms.map fun m => (b, g, m)) (bs.get ⟨a, ha⟩))[
              b * ms.length + c]? := by
      refine getElem?_bind_const (fun x _ => length_inner_product gs ms x) a
        (b * ms.length + c) ha ?_
      calc b * ms.length + c < b * ms.length + ms.length := by omega
        _ = (b + 1) * ms.length := by ring
        _ ≤ gs.length * ms.length := Nat.mul_le_mul_right _ hb
    have harith : a * gs.length * ms.length + b * ms.length + c
        = a * (gs.length * ms.length) + (b * ms.length + c) := by ring
    rw [harith, houter]
    have hinner :
        ((gs.flatMap fun g => ms.map fun m => (bs.get ⟨a, ha⟩, g, m)))[b * ms.length + c]?
          = ((fun g => ms.map fun m => (bs.get ⟨a, ha⟩, g, m)) (gs.get ⟨b, hb⟩))[c]? :=
      getElem?_bind_const (fun g _ => by simp) b c hb hc
    rw [hinner]
    simp only [List.getElem?_map]
    rw [List.getElem?_eq_getElem hc]
    rfl
  · rfl
  · simp [generate_combinations_for_bioprocs_genes_and_metapaths]
  · simp [generate_combinations_for_bioprocs_genes_and_metapaths]

/-! ## The chunker: `process_in_chunks_for_bioprocs_genes_and_metapaths` -/

/-- One chunk as a `pa.table` built from the dict
`{"source_id": ..., "target_id": ..., "metapath": ...}`: an ordered list of
named columns. -/
abbrev ChunkTable := List (String × List String)

/-- The `pa.table(...)` call in the chunker: columns `source_id`, `target_id`,
`metapath`, in that order, each holding the corresponding components of the
buffered rows. -/
def mkChunkTable (chunk : List StrTriple) : ChunkTable :=
  [("source_id", chunk.map fun r => r.1),
   ("target_id", chunk.map fun r => r.2.1),
   ("metapath", chunk.map fun r => r.2.2)]

/-- `table.column_names`. -/
def tableColumnNames (t : ChunkTable) : List String := t.map fun c => c.1

/-- `table.num_rows` (length of the first column; `0` for a table with no
columns). -/
def tableNumRows (t : ChunkTable) : Nat :=
  match t with
  | [] => 0
  | c :: _ => c.2.length

/-- `table[name].to_pylist()` (empty list when the column is absent). -/
def tableColumn (t : ChunkTable) (name : String) : List String :=
  match t.find? fun c => c.1 == name with
  | some c => c.2
  | none => []

/-- The loop body of `process_in_chunks_for_bioprocs_genes_and_metapaths`:
`i` is the running `enumerate` index, `buf` the in-progress `chunk` buffer.
Each combination is coerced componentwise with
`str(x) if x is not None else ""` and appended to the buffer; the buffer is
emitted as a `pa.table` whenever `(i + 1) % chunk_size == 0` (Python `%` is
floor-mod, `Int.fmod`; a zero `chunk_size` raises `ZeroDivisionError` at the
first iteration); a nonempty leftover buffer is emitted at exhaustion. -/
def chunkLoop : List PyTriple → Nat → Int → List StrTriple →
    Except PyError (List ChunkTable)
  | [], _, _, buf =>
    if buf.isEmpty then .ok [] else .ok [mkChunkTable buf]
  | combo :: rest, i, chunkSize, buf =>
    if chunkSize = 0 then .error .zeroDivisionError
    else
      let buf2 := buf ++ [pyTripleToStr combo]
      if Int.fmod (Int.ofNat (i + 1)) chunkSize = 0 then
        Except.map (fun more => mkChunkTable buf2 :: more)
          (chunkLoop rest (i + 1) chunkSize [])
      else chunkLoop rest (i + 1) chunkSize buf2

/-- `process_in_chunks_for_bioprocs_genes_and_metapaths` from
`hetionet_utils/combination.py`, with the generator materialized as a list. -/
def process_in_chunks_for_bioprocs_genes_and_metapaths
    (generator : List PyTriple) (chunk_size : Int) : Except PyError (List ChunkTable) :=
  chunkLoop generator 0 chunk_size []

/-! ### A pure view of the chunking recursion -/

/-- Buffer-passing chunking of a plain list (no table construction, no
index arithmetic): the pure computation performed by `chunkLoop`. -/
def chunkAcc (s : Nat) : List α → List α → List (List α)
  | buf, [] => if buf.isEmpty then [] else [buf]
  | buf, x :: xs =>
    if buf.length + 1 = s then (buf ++ [x]) :: chunkAcc s [] xs
    else chunkAcc s (buf ++ [x]) xs

/-- Splitting a list into consecutive blocks of `s` elements (last block
possibly short). -/
def chunksOf (s : Nat) (l : List α) : List (List α) :=
  match l with
  | [] => []
  | x :: xs => (x :: xs.take (s - 1)) :: chunksOf s (xs.drop (s - 1))
termination_by l.length
decreasing_by simp only [List.length_drop, List.length_cons]; omega

theorem chunksOf_cons_eq (s : Nat) (hs : 0 < s) (x : α) (xs : List α) :
    chunksOf s (x :: xs) = (x :: xs).take s :: chunksOf s ((x :: xs).drop s) := by
  rw [chunksOf]
  obtain ⟨t, rfl⟩ : ∃ t, s = t + 1 := ⟨s - 1, by omega⟩
  simp

theorem chunksOf_ne_nil_eq (s : Nat) (hs : 0 < s) (l : List α) (hl : l ≠ []) :
    chunksOf s l = l.take s :: chunksOf s (l.drop s) := by
  cases l with
  | nil => exact absurd rfl hl
  | cons x xs => exact chunksOf_cons_eq s hs x xs

theorem fmod_eq_zero_iff_dvd (a b : Int) : Int.fmod a b = 0 ↔ b ∣ a := by
  constructor
  · intro h
    refine ⟨Int.fdiv a b, ?_⟩
    have := Int.fmod_add_fdiv a b
    rw [h, Int.zero_add] at this
    omega
  · rintro ⟨k, rfl⟩
    rw [Int.mul_comm]
    exact Int.mul_fmod_left k b

theorem succ_mod_eq_zero_iff (i s : Nat) (hs : 0 < s) :
    ((i + 1) % s = 0 ↔ i % s + 1 = s) := by
  have hlt : i % s < s := Nat.mod_lt _ hs
  have hmod : (i + 1) % s = (i % s + 1) % s := (Nat.mod_add_mod i s 1).symm
  by_cases heq : i % s + 1 = s
  · rw [hmod, heq, Nat.mod_self]
    simp [heq]
  · have hl : i % s + 1 < s := by omega
    rw [hmod, Nat.mod_eq_of_lt hl]
    omega

theorem chunkLoop_eq_chunkAcc (s : Nat) (hs : 0 < s) (l : List PyTriple) :
    ∀ (i : Nat) (buf : List StrTriple), buf.length = i % s →
      chunkLoop l i (Int.ofNat s) buf
        = .ok ((chunkAcc s buf (l.map pyTripleToStr)).map mkChunkTable) := by
  induction l with
  | nil =>
    intro i buf _
    cases buf <;> simp [chunkLoop, chunkAcc]
  | cons combo rest ih =>
    intro i buf hbuf
    have hsz : (Int.ofNat s) ≠ 0 := by
      simp only [ne_eq, Int.ofNat_eq_coe, Int.natCast_eq_zero]
      omega
    have hfm : Int.fmod (Int.ofNat (i + 1)) (Int.ofNat s) = Int.ofNat ((i + 1) % s) := by
      simp only [Int.ofNat_eq_coe]
      exact (Int.ofNat_fmod (i + 1) s).symm
    have hcond : (Int.fmod (Int.ofNat (i + 1)) (Int.ofNat s) = 0)
        ↔ (buf.length + 1 = s) := by
      rw [hfm]
      simp only [Int.ofNat_eq_coe, Int.natCast_eq_zero]
      rw [succ_mod_eq_zero_iff i s hs, hbuf]
    simp only [chunkLoop, if_neg hsz, List.map_cons]
    by_cases hfull : buf.length + 1 = s
    · rw [if_pos (hcond.mpr hfull)]
      rw [ih (i + 1) [] (by simp [(succ_mod_eq_zero_iff i s hs).mpr (hbuf ▸ hfull)])]
      simp only [chunkAcc, if_pos hfull, List.map_cons, Except.map]
    · rw [if_neg (fun h => hfull (hcond.mp h))]
      have hlt : i % s < s := Nat.mod_lt _ hs
      have hne : i % s + 1 ≠ s := by
        rw [← hbuf]; exact hfull
      have hstep : (i + 1) % s = i % s + 1 := by
        rw [← Nat.mod_add_mod, Nat.mod_eq_of_lt (by omega : i % s + 1 < s)]
      rw [ih (i + 1) (buf ++ [pyTripleToStr combo]) (by simp [hbuf, hstep])]
      simp only [chunkAcc, if_neg hfull]

theorem chunkAcc_eq_chunksOf (s : Nat) (hs : 0 < s) (l : List α) :
    ∀ (buf : List α), buf.length < s → chunkAcc s buf l = chunksOf s (buf ++ l) := by
  induction l with
  | nil =>
    intro buf hbuf
    cases buf with
    | nil => simp [chunkAcc, chunksOf]
    | cons y ys =>
      simp only [chunkAcc, List.isEmpty_cons, List.append_nil]
      rw [chunksOf]
      have h1 : ys.take (s - 1) = ys := List.take_of_length_le (by
        simp only [List.length_cons] at hbuf; omega)
      have h2 : ys.drop (s - 1) = [] := List.drop_eq_nil_of_le (by
        simp only [List.length_cons] at hbuf; omega)
      simp [h1, h2, chunksOf]
  | cons x xs ih =>
    intro buf hbuf
    by_cases hfull : buf.length + 1 = s
    · simp only [chunkAcc, if_pos hfull]
      rw [ih [] (by simpa using hs), List.nil_append]
      have htake : (buf ++ x :: xs).take s = buf ++ [x] := by
        rw [← hfull, List.take_append]
        simp
      have hdrop : (buf ++ x :: xs).drop s = xs := by
        rw [← hfull, List.drop_append]
        rfl
      conv_rhs => rw [chunksOf_ne_nil_eq s hs (buf ++ x :: xs) (by simp)]
      rw [htake, hdrop]
    · simp only [chunkAcc, if_neg hfull]
      rw [ih (buf ++ [x]) (by simp; omega)]
      simp

/-- Master description of the chunker for a positive chunk size: it succeeds
and returns exactly the consecutive `s`-blocks of the coerced input,
each wrapped as a `pa.table`. -/
theorem process_in_chunks_eq_chunksOf (s : Nat) (hs : 0 < s) (l : List PyTriple) :
    process_in_chunks_for_bioprocs_genes_and_metapaths l (Int.ofNat s)
      = .ok ((chunksOf s (l.map pyTripleToStr)).map mkChunkTable) := by
  rw [process_in_chunks_for_bioprocs_genes_and_metapaths,
    chunkLoop_eq_chunkAcc s hs l 0 [] (by simp),
    chunkAcc_eq_chunksOf s hs _ [] (by simpa using hs), List.nil_append]

/-! ### Properties of `chunksOf` -/

theorem chunksOf_flatten (s : Nat) (l : List α) :
    (chunksOf s l).flatten = l := by
  induction l using chunksOf.induct s with
  | case1 => simp [chunksOf]
  | case2 x xs ih =>
    rw [chunksOf]
    simp only [List.flatten_cons, ih]
    simp [List.take_append_drop]

theorem chunksOf_length (s : Nat) (hs : 0 < s) (l : List α) :
    (chunksOf s l).length = (l.length + s - 1) / s := by
  induction l using chunksOf.induct s with
  | case1 =>
    simp [chunksOf, Nat.div_eq_of_lt (by omega : s - 1 < s)]
  | case2 x xs ih =>
    rw [chunksOf]
    simp only [List.length_cons, ih, List.length_drop]
    by_cases hle : xs.length + 1 ≤ s
    · have h1 : xs.length - (s - 1) = 0 := by omega
      have h2 : xs.length + 1 + s - 1 = xs.length + s := by omega
      rw [h1, h2, Nat.add_div_right _ hs,
        Nat.div_eq_of_lt (by omega : xs.length < s),
        Nat.div_eq_of_lt (by omega : 0 + s - 1 < s)]
    · have h1 : xs.length - (s - 1) + s - 1 = xs.length := by omega
      have h2 : xs.length + 1 + s - 1 = xs.length + s := by omega
      rw [h1, h2, Nat.add_div_right _ hs]

theorem chunksOf_sizes (s : Nat) (hs : 0 < s) (l : List α) :
    ∀ c ∈ chunksOf s l, 0 < c.length ∧ c.length ≤ s := by
  induction l using chunksOf.induct s with
  | case1 => simp [chunksOf]
  | case2 x xs ih =>
    rw [chunksOf]
    intro c hc
    rcases List.mem_cons.mp hc with h | h
    · subst h
      simp only [List.length_cons, List.length_take]
      omega
    · exact ih c h

theorem chunksOf_eq_nil_iff (s : Nat) (l : List α) :
    chunksOf s l = [] ↔ l = [] := by
  cases l with
  | nil => simp [chunksOf]
  | cons x xs =>
    rw [chunksOf]
    simp

theorem chunksOf_dropLast_sizes (s : Nat) (hs : 0 < s) (l : List α) :
    ∀ c ∈ (chunksOf s l).dropLast, c.length = s := by
  induction l using chunksOf.induct s with
  | case1 => simp [chunksOf]
  | case2 x xs ih =>
    rw [chunksOf]
    intro c hc
    rcases hrest : chunksOf s (xs.drop (s - 1)) with _ | ⟨ c2, rest2 ⟩
    · rw [hrest] at hc
      simp at hc
    · rw [hrest] at hc
      rw [List.dropLast_cons₂] at hc
      rcases List.mem_cons.mp hc with h | h
      · subst h
        have hne : xs.drop (s - 1) ≠ [] := by
          intro habs
          rw [habs] at hrest
          simp [chunksOf] at hrest
        have hxs : s - 1 ≤ xs.length := by
          by_contra habs
          exact hne (List.drop_eq_nil_of_le (by omega))
        simp only [List.length_cons, List.length_take]
        omega
      · rw [← hrest] at h
        exact ih c h

theorem chunksOf_getLast_size (s : Nat) (hs : 0 < s) (l : List α) :
    ∀ c, (chunksOf s l).getLast? = some c →
      c.length = if l.length % s = 0 then s else l.length % s := by
  induction l using chunksOf.induct s with
  | case1 => simp [chunksOf]
  | case2 x xs ih =>
    rw [chunksOf]
    intro c hc
    rcases hrest : chunksOf s (xs.drop (s - 1)) with _ | ⟨ c2, rest2 ⟩
    · rw [hrest, List.getLast?_singleton] at hc
      have hdropnil : xs.drop (s - 1) = [] := (chunksOf_eq_nil_iff s _).mp hrest
      have hxslen : xs.length ≤ s - 1 := by
        by_contra habs
        have := List.length_drop (s - 1) xs
        rw [hdropnil] at this
        simp at this
        omega
      cases hc
      simp only [List.length_cons, List.length_take,
        Nat.min_eq_right hxslen]
      have hlen : xs.length + 1 ≤ s := by omega
      rcases Nat.eq_or_lt_of_le hlen with he | hl
      · rw [he, Nat.mod_self]
        simp
      · rw [Nat.mod_eq_of_lt hl, if_neg (by omega : ¬(xs.length + 1 = 0))]
    · rw [hrest] at hc
      rw [List.getLast?_cons_cons] at hc
      rw [← hrest] at hc
      have hne : xs.drop (s - 1) ≠ [] := by
        intro habs
        rw [habs] at hrest
        simp [chunksOf] at hrest
      have hxs : s - 1 ≤ xs.length := by
        by_contra habs
        exact hne (List.drop_eq_nil_of_le (by omega))
      have := ih c hc
      rw [List.length_drop] at this
      have hmod : (xs.length - (s - 1)) % s = (xs.length + 1) % s := by
        have harith : xs.length + 1 = (xs.length - (s - 1)) + s := by omega
        rw [harith, Nat.add_mod_right]
      rw [hmod] at this
      rw [List.length_cons]
      exact this

/-! ### Facts about the emitted `pa.table`s -/

theorem tableColumnNames_mkChunkTable (chunk : List StrTriple) :
    tableColumnNames (mkChunkTable chunk) = ["source_id", "target_id", "metapath"] := rfl

theorem tableNumRows_mkChunkTable (chunk : List StrTriple) :
    tableNumRows (mkChunkTable chunk) = chunk.length := by
  simp [tableNumRows, mkChunkTable]

theorem tableColumn_mkChunkTable_source (chunk : List StrTriple) :
    tableColumn (mkChunkTable chunk) "source_id" = chunk.map fun r => r.1 := rfl

theorem tableColumn_mkChunkTable_target (chunk : List StrTriple) :
    tableColumn (mkChunkTable chunk) "target_id" = chunk.map fun r => r.2.1 := rfl

theorem tableColumn_mkChunkTable_metapath (chunk : List StrTriple) :
    tableColumn (mkChunkTable chunk) "metapath" = chunk.map fun r => r.2.2 := rfl

/-- A string triple injected back into Python values (the typical case: the
generator yields string identifiers, per the chunker's declared input type
`Iterator[Tuple[str, str, str]]`). -/
def strTripleToPy (t : StrTriple) : PyTriple :=
  (PyVal.vStr t.1, PyVal.vStr t.2.1, PyVal.vStr t.2.2)

theorem map_pyTripleToStr_strTripleToPy (l : List StrTriple) :
    (l.map strTripleToPy).map pyTripleToStr = l := by
  rw [List.map_map]
  have : pyTripleToStr ∘ strTripleToPy = id := by
    funext t
    rfl
  rw [this, List.map_id]

theorem flatten_mapped_chunks (n : Nat) (rows : List StrTriple)
    (g : StrTriple → String) (name : String)
    (hg : ∀ c : List StrTriple, tableColumn (mkChunkTable c) name = c.map g) :
    (((chunksOf n rows).map mkChunkTable).map fun t => tableColumn t name).flatten
      = rows.map g := by
  simp only [List.map_map, Function.comp_def, hg]
  rw [← List.map_flatten, chunksOf_flatten]

/-- **C2.** For a positive chunk size `s` and an input sequence of `L` string
triples, the chunker succeeds and yields `ceil(L/s)` batches, never an empty
one; all but the last have exactly `s` rows; the last has `L mod s` rows
(`s` when that remainder is 0); concatenating the batches columnwise
reproduces the input sequence exactly. -/
theorem chunker_batch_partition (l : List StrTriple) (s : Nat) (hs : 0 < s) :
    ∃ batches : List ChunkTable,
      process_in_chunks_for_bioprocs_genes_and_metapaths
          (l.map strTripleToPy) (Int.ofNat s) = .ok batches
      ∧ batches.length = (l.length + s - 1) / s
      ∧ (∀ t ∈ batches, 0 < tableNumRows t ∧ tableNumRows t ≤ s)
      ∧ (∀ t ∈ batches.dropLast, tableNumRows t = s)
      ∧ (∀ t, batches.getLast? = some t →
          tableNumRows t = if l.length % s = 0 then s else l.length % s)
      ∧ (batches.map fun t => tableColumn t "source_id").flatten
          = l.map (fun r => r.1)
      ∧ (batches.map fun t => tableColumn t "target_id").flatten
          = l.map (fun r => r.2.1)
      ∧ (batches.map fun t => tableColumn t "metapath").flatten
          = l.map (fun r => r.2.2) := by
  refine ⟨(chunksOf s l).map mkChunkTable, ?_, ?_, ?_, ?_, ?_, ?_, ?_, ?_⟩
  · rw [process_in_chunks_eq_chunksOf s hs, map_pyTripleToStr_strTripleToPy]
  · rw [List.length_map, chunksOf_length s hs]
  · intro t ht
    obtain ⟨c, hc, rfl⟩ := List.mem_map.mp ht
    rw [tableNumRows_mkChunkTable]
    exact chunksOf_sizes s hs l c hc
  · intro t ht
    rw [← List.map_dropLast] at ht
    obtain ⟨c, hc, rfl⟩ := List.mem_map.mp ht
    rw [tableNumRows_mkChunkTable]
    exact chunksOf_dropLast_sizes s hs l c hc
  · intro t ht
    rw [List.getLast?_map] at ht
    obtain ⟨c, hc, rfl⟩ := Option.map_eq_some'.mp ht
    rw [tableNumRows_mkChunkTable]
    exact chunksOf_getLast_size s hs l c hc
  · exact flatten_mapped_chunks s l _ _ tableColumn_mkChunkTable_source
  · exact flatten_mapped_chunks s l _ _ tableColumn_mkChunkTable_target
  · exact flatten_mapped_chunks s l _ _ tableColumn_mkChunkTable_metapath

/-- Witness for C2: three triples, chunk size 2 — two batches of sizes 2
and 1, concatenating to the input. -/
theorem chunker_batch_partition_witness :
    ∃ batches : List ChunkTable,
      process_in_chunks_for_bioprocs_genes_and_metapaths
          ([("b1", "g1", "m1"), ("b1", "g2", "m1"), ("b1", "g3", "m1")].map strTripleToPy)
          (Int.ofNat 2) = .ok batches
      ∧ batches.length = 2
      ∧ (∀ t ∈ batches, 0 < tableNumRows t ∧ tableNumRows t ≤ 2)
      ∧ (∀ t ∈ batches.dropLast, tableNumRows t = 2)
      ∧ (∀ t, batches.getLast? = some t → tableNumRows t = 1)
      ∧ (batches.map fun t => tableColumn t "source_id").flatten = ["b1", "b1", "b1"]
      ∧ (batches.map fun t => tableColumn t "target_id").flatten = ["g1", "g2", "g3"]
      ∧ (batches.map fun t => tableColumn t "metapath").flatten = ["m1", "m1", "m1"] := by
  exact chunker_batch_partition
    [("b1", "g1", "m1"), ("b1", "g2", "m1"), ("b1", "g3", "m1")] 2 (by omega)

/-- Negating the chunk size does not change the chunker's behaviour
(Python floor-mod `(i + 1) % chunk_size == 0` tests divisibility only). -/
theorem chunkLoop_neg_chunk_size (l : List PyTriple) :
    ∀ (i : Nat) (buf : List StrTriple) (s : Int), s ≠ 0 →
      chunkLoop l i (-s) buf = chunkLoop l i s buf := by
  induction l with
  | nil =>
    intro i buf s _
    rfl
  | cons combo rest ih =>
    intro i buf s hs
    have hneg : (-s) ≠ 0 := neg_ne_zero.mpr hs
    simp only [chunkLoop, if_neg hneg, if_neg hs]
    have hcond : (Int.fmod (Int.ofNat (i + 1)) (-s) = 0)
        ↔ (Int.fmod (Int.ofNat (i + 1)) s = 0) := by
      rw [fmod_eq_zero_iff_dvd, fmod_eq_zero_iff_dvd, Int.neg_dvd]
    by_cases h : Int.fmod (Int.ofNat (i + 1)) s = 0
    · rw [if_pos (hcond.mpr h), if_pos h, ih (i + 1) [] s hs]
    · rw [if_neg (fun hh => h (hcond.mp hh)), if_neg h]
      exact ih (i + 1) _ s hs

/-- Any successful run of the chunker produces exactly the `n`-blocks of the
coerced input for some positive `n`. -/
theorem process_in_chunks_ok_shape (input : List PyTriple) (s : Int)
    (batches : List ChunkTable)
    (h : process_in_chunks_for_bioprocs_genes_and_metapaths input s = .ok batches) :
    ∃ n : Nat, 0 < n
      ∧ batches = (chunksOf n (input.map pyTripleToStr)).map mkChunkTable := by
  rcases s with n | n
  · rcases n with _ | m
    · cases input with
      | nil =>
        refine ⟨1, Nat.one_pos, ?_⟩
        simp only [process_in_chunks_for_bioprocs_genes_and_metapaths, chunkLoop,
          List.isEmpty_nil, if_pos, Except.ok.injEq] at h
        rw [← h]
        simp [chunksOf]
      | cons c rest =>
        simp [process_in_chunks_for_bioprocs_genes_and_metapaths, chunkLoop] at h
    · refine ⟨m + 1, Nat.succ_pos m, ?_⟩
      rw [process_in_chunks_eq_chunksOf (m + 1) (Nat.succ_pos m)] at h
      exact (Except.ok.injEq _ _).mp h.symm
  · refine ⟨n + 1, Nat.succ_pos n, ?_⟩
    have heq : (Int.negSucc n) = -(Int.ofNat (n + 1)) := rfl
    rw [process_in_chunks_for_bioprocs_genes_and_metapaths, heq,
      chunkLoop_neg_chunk_size input 0 [] (Int.ofNat (n + 1)) (by
        simp only [ne_eq, Int.ofNat_eq_coe, Int.natCast_eq_zero]
        omega)] at h
    rw [show chunkLoop input 0 (Int.ofNat (n + 1)) []
        = process_in_chunks_for_bioprocs_genes_and_metapaths input (Int.ofNat (n + 1))
      from rfl, process_in_chunks_eq_chunksOf (n + 1) (Nat.succ_pos n)] at h
    exact (Except.ok.injEq _ _).mp h.symm

/-- **C3 (amended).** The chunker performs no validation of `chunk_size`:
with `chunk_size = 0` it raises `ZeroDivisionError` only upon processing the
first element (an empty input yields zero batches with no error at all), and
a negative `chunk_size` is accepted and behaves exactly like its absolute
value. No `InvalidArgument`-style failure happens before work starts. -/
theorem process_in_chunks_no_validation :
    (∀ input : List PyTriple, input ≠ [] →
        process_in_chunks_for_bioprocs_genes_and_metapaths input 0
          = .error PyError.zeroDivisionError)
    ∧ process_in_chunks_for_bioprocs_genes_and_metapaths [] 0 = .ok []
    ∧ (∀ (input : List PyTriple) (s : Int), s ≠ 0 →
        process_in_chunks_for_bioprocs_genes_and_metapaths input (-s)
          = process_in_chunks_for_bioprocs_genes_and_metapaths input s) := by
  refine ⟨?_, rfl, ?_⟩
  · intro input hne
    cases input with
    | nil => exact absurd rfl hne
    | cons c rest => rfl
  · intro input s hs
    exact chunkLoop_neg_chunk_size input 0 [] s hs

/-- Counterexample to C3 as stated: `chunk_size = -1 ≤ 0` on a nonempty input
succeeds with a batch instead of failing with any error. -/
theorem process_in_chunks_negative_chunk_size_succeeds :
    process_in_chunks_for_bioprocs_genes_and_metapaths
        [(PyVal.vStr "b1", PyVal.vStr "g1", PyVal.vStr "m1")] (-1)
      = .ok [[("source_id", ["b1"]), ("target_id", ["g1"]), ("metapath", ["m1"])]] := rfl

/-- Witness for the amended C3 at concrete inputs. -/
theorem process_in_chunks_no_validation_witness :
    process_in_chunks_for_bioprocs_genes_and_metapaths
        [(PyVal.vStr "b1", PyVal.vStr "g1", PyVal.vStr "m1")] 0
      = .error PyError.zeroDivisionError
    ∧ process_in_chunks_for_bioprocs_genes_and_metapaths
        [(PyVal.vStr "b1", PyVal.vStr "g1", PyVal.vStr "m1")] (-2)
      = process_in_chunks_for_bioprocs_genes_and_metapaths
          [(PyVal.vStr "b1", PyVal.vStr "g1", PyVal.vStr "m1")] 2 :=
  ⟨process_in_chunks_no_validation.1 _ (by simp),
   process_in_chunks_no_validation.2.2 _ 2 (by decide)⟩

/-- **C9.** Every batch a successful chunker run emits has exactly the columns
`source_id`, `target_id`, `metapath` in that order; every emitted value is the
`str()` coercion of the corresponding input component, with `None` mapped to
the empty string (so no emitted batch contains a null value). -/
theorem chunker_batches_columns_and_coercion :
    ∀ (input : List PyTriple) (s : Int) (batches : List ChunkTable),
      process_in_chunks_for_bioprocs_genes_and_metapaths input s = .ok batches →
        (∀ t ∈ batches, tableColumnNames t = ["source_id", "target_id", "metapath"])
        ∧ (batches.map fun t => tableColumn t "source_id").flatten
            = input.map (fun c => pyToStr c.1)
        ∧ (batches.map fun t => tableColumn t "target_id").flatten
            = input.map (fun c => pyToStr c.2.1)
        ∧ (batches.map fun t => tableColumn t "metapath").flatten
            = input.map (fun c => pyToStr c.2.2)
        ∧ pyToStr PyVal.vNone = "" := by
  intro input s batches h
  obtain ⟨n, hn, rfl⟩ := process_in_chunks_ok_shape input s batches h
  refine ⟨?_, ?_, ?_, ?_, rfl⟩
  · intro t ht
    obtain ⟨c, _, rfl⟩ := List.mem_map.mp ht
    rfl
  · rw [flatten_mapped_chunks n _ _ _ tableColumn_mkChunkTable_source, List.map_map]
    rfl
  · rw [flatten_mapped_chunks n _ _ _ tableColumn_mkChunkTable_target, List.map_map]
    rfl
  · rw [flatten_mapped_chunks n _ _ _ tableColumn_mkChunkTable_metapath, List.map_map]
    rfl

/-- Witness for C9 at an input containing `None` and a negative integer:
the emitted batch holds `""` and `"-7"`. -/
theorem chunker_batches_columns_and_coercion_witness :
    (∀ t ∈ ([[("source_id", ["", "b2"]), ("target_id", ["-7", ""]),
        ("metapath", ["m1", "m2"])]] : List ChunkTable),
      tableColumnNames t = ["source_id", "target_id", "metapath"])
    ∧ ([[("source_id", ["", "b2"]), ("target_id", ["-7", ""]),
        ("metapath", ["m1", "m2"])]].map fun t => tableColumn t "source_id").flatten
        = ["", "b2"]
    ∧ ([[("source_id", ["", "b2"]), ("target_id", ["-7", ""]),
        ("metapath", ["m1", "m2"])]].map fun t => tableColumn t "target_id").flatten
        = ["-7", ""]
    ∧ ([[("source_id", ["", "b2"]), ("target_id", ["-7", ""]),
        ("metapath", ["m1", "m2"])]].map fun t => tableColumn t "metapath").flatten
        = ["m1", "m2"]
    ∧ pyToStr PyVal.vNone = "" := by
  exact chunker_batches_columns_and_coercion
    [(PyVal.vNone, PyVal.vInt (-7), PyVal.vStr "m1"),
     (PyVal.vStr "b2", PyVal.vNone, PyVal.vStr "m2")] 5 _ rfl

/-- Witness for C1 at a concrete input (2 sources, 3 targets, 2 metapaths;
index 9 = 1*3*2 + 1*2 + 1 picks sources[1], targets[1], metapaths[1]). -/
theorem generate_combinations_indexed_cross_product_witness :
    (generate_combinations_for_bioprocs_genes_and_metapaths
        ["b1", "b2"] ["g1", "g2", "g3"] ["m1", "m2"]).length = 2 * 3 * 2
    ∧ (generate_combinations_for_bioprocs_genes_and_metapaths
        ["b1", "b2"] ["g1", "g2", "g3"] ["m1", "m2"])[9]? = some ("b2", "g2", "m2") := by
  have h := generate_combinations_indexed_cross_product
    ["b1", "b2"] ["g1", "g2", "g3"] ["m1", "m2"]
  refine ⟨h.1, ?_⟩
  have := h.2.1 1 1 1 (by decide) (by decide) (by decide)
  simpa using this

/-! ## `HetionetNeo4j` identifier resolution (`database.py`)

`get_id_from_identifer` runs the Cypher query

```
MATCH (node) WHERE node.identifier = $identifier
RETURN id(node) AS neo4j_id, node.identifier AS identifier
ORDER BY neo4j_id
```

and indexes the result list with `[0]["neo4j_id"]`. The graph is modelled as
a list of nodes; the query as a filter followed by a stable ascending sort on
`neo4j_id` (insertion sort); `[0]` on an empty result raises `IndexError`. -/

/-- A Neo4j node: its internal id and its `identifier` property. -/
structure Node where
  neo4jId : Int
  identifier : String
deriving DecidableEq, Repr

/-- Ordered insertion by `neo4jId` (ascending). -/
def insertByNeoId (n : Node) : List Node → List Node
  | [] => [n]
  | m :: rest =>
    if n.neo4jId ≤ m.neo4jId then n :: m :: rest else m :: insertByNeoId n rest

/-- `ORDER BY neo4j_id`: stable ascending sort. -/
def orderByNeo4jId : List Node → List Node
  | [] => []
  | n :: rest => insertByNeoId n (orderByNeo4jId rest)

/-- The node-identifier Cypher query: all nodes whose `identifier` property
equals the argument, ordered by internal id ascending. -/
def run_query_node_identifier_to_neo4j_id (nodes : List Node)
    (identifier : String) : List Node :=
  orderByNeo4jId (nodes.filter fun n => n.identifier == identifier)

/-- `HetionetNeo4j.get_id_from_identifer`: first row's `neo4j_id`;
`[0]` on an empty query result raises `IndexError`. -/
def get_id_from_identifer (nodes : List Node) (identifier : String) :
    Except PyError Int :=
  match run_query_node_identifier_to_neo4j_id nodes identifier with
  | [] => .error PyError.indexError
  | n :: _ => .ok n.neo4jId

theorem mem_insertByNeoId (n x : Node) (l : List Node) :
    x ∈ insertByNeoId n l ↔ x = n ∨ x ∈ l := by
  induction l with
  | nil => simp [insertByNeoId]
  | cons m rest ih =>
    rw [insertByNeoId]
    by_cases h : n.neo4jId ≤ m.neo4jId
    · rw [if_pos h]
      simp
    · rw [if_neg h]
      simp only [List.mem_cons, ih]
      tauto

theorem mem_orderByNeo4jId (x : Node) (l : List Node) :
    x ∈ orderByNeo4jId l ↔ x ∈ l := by
  induction l with
  | nil => simp [orderByNeo4jId]
  | cons n rest ih =>
    rw [orderByNeo4jId, mem_insertByNeoId]
    simp [ih]

theorem pairwise_insertByNeoId (n : Node) (l : List Node)
    (h : l.Pairwise fun a b => a.neo4jId ≤ b.neo4jId) :
    (insertByNeoId n l).Pairwise fun a b => a.neo4jId ≤ b.neo4jId := by
  induction l with
  | nil => simp [insertByNeoId]
  | cons m rest ih =>
    rw [insertByNeoId]
    obtain ⟨hm, hrest⟩ := List.pairwise_cons.mp h
    by_cases hle : n.neo4jId ≤ m.neo4jId
    · rw [if_pos hle]
      refine List.pairwise_cons.mpr ⟨?_, h⟩
      intro b hb
      rcases List.mem_cons.mp hb with rfl | hb
      · exact hle
      · exact le_trans hle (hm b hb)
    · rw [if_neg hle]
      refine List.pairwise_cons.mpr ⟨?_, ih hrest⟩
      intro b hb
      rcases (mem_insertByNeoId n b rest).mp hb with rfl | hb
      · omega
      · exact hm b hb

theorem pairwise_orderByNeo4jId (l : List Node) :
    (orderByNeo4jId l).Pairwise fun a b => a.neo4jId ≤ b.neo4jId := by
  induction l with
  | nil => simp [orderByNeo4jId]
  | cons n rest ih => exact pairwise_insertByNeoId n _ ih

theorem orderByNeo4jId_eq_nil_iff (l : List Node) :
    orderByNeo4jId l = [] ↔ l = [] := by
  cases l with
  | nil => simp [orderByNeo4jId]
  | cons n rest =>
    rw [orderByNeo4jId]
    constructor
    · intro h
      have : n ∈ insertByNeoId n (orderByNeo4jId rest) :=
        (mem_insertByNeoId n n _).mpr (Or.inl rfl)
      rw [h] at this
      simp at this
    · intro h
      simp at h

/-- **C5.** Identifier resolution returns the matching node with the smallest
internal id (the Cypher `ORDER BY neo4j_id` followed by `[0]`); when no node
matches, the call fails with an error (`IndexError` from `[0]`, the NotFound
case of the spec's taxonomy). -/
theorem get_id_from_identifer_min_or_error (nodes : List Node) (identifier : String) :
    ((∀ n ∈ nodes, n.identifier ≠ identifier) →
        get_id_from_identifer nodes identifier = .error PyError.indexError)
    ∧ (∀ n0 ∈ nodes, n0.identifier = identifier →
        ∃ m : Int, get_id_from_identifer nodes identifier = .ok m
          ∧ (∃ nm ∈ nodes, nm.identifier = identifier ∧ nm.neo4jId = m)
          ∧ (∀ n' ∈ nodes, n'.identifier = identifier → m ≤ n'.neo4jId)) := by
  constructor
  · intro hnone
    have hfil : nodes.filter (fun n => n.identifier == identifier) = [] := by
      rw [List.filter_eq_nil_iff]
      intro n hn
      simpa using hnone n hn
    rw [get_id_from_identifer, run_query_node_identifier_to_neo4j_id, hfil]
    rfl
  · intro n0 hn0 hid
    have hmem : n0 ∈ nodes.filter (fun n => n.identifier == identifier) :=
      List.mem_filter.mpr ⟨hn0, by simpa using hid⟩
    have hne : run_query_node_identifier_to_neo4j_id nodes identifier ≠ [] := by
      rw [run_query_node_identifier_to_neo4j_id, ne_eq, orderByNeo4jId_eq_nil_iff]
      intro habs
      rw [habs] at hmem
      simp at hmem
    rcases hq : run_query_node_identifier_to_neo4j_id nodes identifier with _ | ⟨ hd, tl ⟩
    · exact absurd hq hne
    · refine ⟨hd.neo4jId, ?_, ?_, ?_⟩
      · rw [get_id_from_identifer, hq]
      · have : hd ∈ run_query_node_identifier_to_neo4j_id nodes identifier := by
          rw [hq]
          exact List.mem_cons_self hd tl
        rw [run_query_node_identifier_to_neo4j_id, mem_orderByNeo4jId,
          List.mem_filter] at this
        exact ⟨hd, this.1, by simpa using this.2, rfl⟩
      · intro n' hn' hid'
        have hmem' : n' ∈ run_query_node_identifier_to_neo4j_id nodes identifier := by
          rw [run_query_node_identifier_to_neo4j_id, mem_orderByNeo4jId]
          exact List.mem_filter.mpr ⟨hn', by simpa using hid'⟩
        rw [hq] at hmem'
        rcases List.mem_cons.mp hmem' with rfl | hmem'
        · exact le_refl _
        · have hpair := pairwise_orderByNeo4jId
            (nodes.filter fun n => n.identifier == identifier)
          rw [← run_query_node_identifier_to_neo4j_id, hq] at hpair
          exact (List.pairwise_cons.mp hpair).1 n' hmem'

/-- Witness for C5: duplicate identifiers resolve to the smallest internal
id (2, not 5); an unknown identifier fails with `IndexError`. -/
theorem get_id_from_identifer_min_or_error_witness :
    get_id_from_identifer [⟨5, "GO:1"⟩, ⟨2, "GO:1"⟩, ⟨9, "GO:2"⟩] "GO:9"
        = .error PyError.indexError
    ∧ ∃ m : Int, get_id_from_identifer [⟨5, "GO:1"⟩, ⟨2, "GO:1"⟩, ⟨9, "GO:2"⟩] "GO:1"
          = .ok m
        ∧ (∃ nm ∈ ([⟨5, "GO:1"⟩, ⟨2, "GO:1"⟩, ⟨9, "GO:2"⟩] : List Node),
            nm.identifier = "GO:1" ∧ nm.neo4jId = m)
        ∧ (∀ n' ∈ ([⟨5, "GO:1"⟩, ⟨2, "GO:1"⟩, ⟨9, "GO:2"⟩] : List Node),
            n'.identifier = "GO:1" → m ≤ n'.neo4jId) :=
  ⟨(get_id_from_identifer_min_or_error _ "GO:9").1 (by decide),
   (get_id_from_identifer_min_or_error _ "GO:1").2 ⟨5, "GO:1"⟩ (by decide) rfl⟩

/-! ## `HetionetNeo4j.get_metapath_data` (`database.py`)

The REST call returns a JSON `paths` array; `pd.DataFrame(paths)` builds a
frame whose columns are the row-object fields (`pd.DataFrame([])` has no
columns at all); `df["source_id"] = source_id` broadcasts a scalar over the
frame's rows (appending the column, or overwriting an existing one);
`df[columns]` projects to exactly the named columns and raises `KeyError` on
a missing name. -/

/-- A pandas cell: a string, a list of ids, or a numeric score (the numeric
payload is opaque to this development — no arithmetic is ever performed on
it). -/
inductive Cell where
  | str (s : String)
  | ids (l : List Int)
  | num (q : Rat)
deriving DecidableEq, Repr

/-- A pandas DataFrame: ordered named columns of equal length. -/
abbrev DataFrame := List (String × List Cell)

/-- One element of the REST response's `paths` array. -/
structure PathRow where
  metapath : String
  node_ids : List Int
  rel_ids : List Int
  PDP : Rat
  percent_of_DWPC : Rat
  score : Rat
  PC : Rat
  DWPC : Rat
deriving DecidableEq, Repr

/-- `pd.DataFrame(requests.get(url).json()["paths"])`: the eight response
fields as columns; an empty `paths` array yields a frame with no columns. -/
def pathsToDataFrame (paths : List PathRow) : DataFrame :=
  match paths with
  | [] => []
  | p :: rest =>
    [("metapath", (p :: rest).map fun q => Cell.str q.metapath),
     ("node_ids", (p :: rest).map fun q => Cell.ids q.node_ids),
     ("rel_ids", (p :: rest).map fun q => Cell.ids q.rel_ids),
     ("PDP", (p :: rest).map fun q => Cell.num q.PDP),
     ("percent_of_DWPC", (p :: rest).map fun q => Cell.num q.percent_of_DWPC),
     ("score", (p :: rest).map fun q => Cell.num q.score),
     ("PC", (p :: rest).map fun q => Cell.num q.PC),
     ("DWPC", (p :: rest).map fun q => Cell.num q.DWPC)]

/-- Number of rows of a frame (length of its first column, `0` for a frame
with no columns). -/
def dfNumRows (df : DataFrame) : Nat :=
  match df with
  | [] => 0
  | c :: _ => c.2.length

/-- `df[name] = scalar`: broadcast the scalar over the frame's rows,
overwriting the column if present, appending it otherwise. -/
def dfSetCol (df : DataFrame) (name : String) (v : Cell) : DataFrame :=
  if df.any fun c => c.1 == name then
    df.map fun c => if c.1 == name then (c.1, c.2.map fun _ => v) else c
  else df ++ [(name, List.replicate (dfNumRows df) v)]

/-- `df[columns]`: project to exactly the named columns, in the order given;
a missing name raises `KeyError`. -/
def dfProject (df : DataFrame) (cols : List String) : Except PyError DataFrame :=
  match cols with
  | [] => .ok []
  | name :: rest =>
    match df.find? fun c => c.1 == name with
    | none => .error PyError.keyError
    | some c =>
      match dfProject df rest with
      | .error e => .error e
      | .ok out => .ok ((name, c.2) :: out)

/-- `HetionetNeo4j.get_metapath_data`: resolve both identifiers, fetch the
paths (the REST service is a parameter `api` from resolved ids and metapath
to the `paths` array), build the frame, stamp `source_id` and `target_id`
with the original string arguments, then optionally project to `columns`. -/
def get_metapath_data (nodes : List Node) (api : Int → Int → String → List PathRow)
    (source_id target_id metapath : String) (columns : Option (List String)) :
    Except PyError DataFrame :=
  match get_id_from_identifer nodes source_id with
  | .error e => .error e
  | .ok src =>
    match get_id_from_identifer nodes target_id with
    | .error e => .error e
    | .ok tgt =>
      let df1 := pathsToDataFrame (api src tgt metapath)
      let df2 := dfSetCol df1 "source_id" (Cell.str source_id)
      let df3 := dfSetCol df2 "target_id" (Cell.str target_id)
      match columns with
      | none => .ok df3
      | some cols => dfProject df3 cols

/-! ### Facts about the frame operations -/

theorem pathsToDataFrame_names (paths : List PathRow) :
    ∀ c ∈ pathsToDataFrame paths, c.1 ≠ "source_id" ∧ c.1 ≠ "target_id" := by
  cases paths with
  | nil => simp [pathsToDataFrame]
  | cons p rest =>
    intro c hc
    simp only [pathsToDataFrame, List.mem_cons, List.not_mem_nil, or_false] at hc
    rcases hc with rfl | rfl | rfl | rfl | rfl | rfl | rfl | rfl <;> simp

theorem dfSetCol_not_mem (df : DataFrame) (name : String) (v : Cell)
    (h : ∀ c ∈ df, c.1 ≠ name) :
    dfSetCol df name v = df ++ [(name, List.replicate (dfNumRows df) v)] := by
  rw [dfSetCol, if_neg]
  intro habs
  obtain ⟨c, hc, hcn⟩ := List.any_eq_true.mp habs
  exact h c hc (by simpa using hcn)

theorem dfNumRows_append_one (df : DataFrame) (c : String × List Cell) :
    df ≠ [] → dfNumRows (df ++ [c]) = dfNumRows df := by
  cases df with
  | nil => intro h; exact absurd rfl h
  | cons c0 rest => intro _; rfl

/-- The frame after the two stamping assignments: the fetched columns
followed by a broadcast `source_id` column and a broadcast `target_id`
column. -/
theorem stamped_frame_eq (paths : List PathRow) (source_id target_id : String) :
    dfSetCol (dfSetCol (pathsToDataFrame paths) "source_id" (Cell.str source_id))
        "target_id" (Cell.str target_id)
      = pathsToDataFrame paths
        ++ [("source_id",
              List.replicate (dfNumRows (pathsToDataFrame paths)) (Cell.str source_id)),
            ("target_id",
              List.replicate (dfNumRows (pathsToDataFrame paths)) (Cell.str target_id))] := by
  have h1 : dfSetCol (pathsToDataFrame paths) "source_id" (Cell.str source_id)
      = pathsToDataFrame paths
        ++ [("source_id",
            List.replicate (dfNumRows (pathsToDataFrame paths)) (Cell.str source_id))] :=
    dfSetCol_not_mem _ _ _ (fun c hc => (pathsToDataFrame_names paths c hc).1)
  rw [h1, dfSetCol_not_mem]
  · rw [List.append_assoc]
    congr 1
    cases hp : pathsToDataFrame paths with
    | nil => rfl
    | cons c0 rest =>
      rw [dfNumRows_append_one _ _ (by simp [hp])]
      rfl
  · intro c hc
    rcases List.mem_append.mp hc with h | h
    · exact (pathsToDataFrame_names paths c h).2
    · simp only [List.mem_singleton] at h
      subst h
      simp

theorem dfProject_ok_spec (df : DataFrame) (cols : List String) (out : DataFrame)
    (h : dfProject df cols = .ok out) :
    out.map (fun c => c.1) = cols
      ∧ ∀ c ∈ out, ∃ c2 ∈ df, c2.1 = c.1 ∧ c2.2 = c.2 := by
  induction cols generalizing out with
  | nil =>
    simp only [dfProject, Except.ok.injEq] at h
    subst h
    simp
  | cons name rest ih =>
    rw [dfProject] at h
    rcases hf : df.find? (fun c => c.1 == name) with _ | cfound
    · rw [hf] at h
      exact absurd h (by simp)
    · rw [hf] at h
      rcases hr : dfProject df rest with e | out2
      · rw [hr] at h
        exact absurd h (by simp)
      · rw [hr] at h
        simp only [Except.ok.injEq] at h
        subst h
        obtain ⟨hnames, hcols⟩ := ih out2 hr
        constructor
        · simp [hnames]
        · intro c hc
          rcases List.mem_cons.mp hc with rfl | hc2
          · exact ⟨cfound, List.mem_of_find?_eq_some hf,
              by simpa using List.find?_some hf, rfl⟩
          · exact hcols c hc2

theorem dfProject_error_of_missing (df : DataFrame) (cols : List String)
    (h : ∃ name ∈ cols, df.find? (fun c => c.1 == name) = none) :
    dfProject df cols = .error PyError.keyError := by
  induction cols with
  | nil => simp at h
  | cons name rest ih =>
    obtain ⟨w, hw, hfw⟩ := h
    rw [dfProject]
    rcases List.mem_cons.mp hw with rfl | hw2
    · rw [hfw]
    · rcases hf : df.find? (fun c => c.1 == name) with _ | cfound
      · rw [hf]
      · have hrest : dfProject df rest = .error PyError.keyError := ih ⟨w, hw2, hfw⟩
        rw [hf, hrest]

/-- Every column of the stamped frame named `source_id` (resp. `target_id`)
holds only the broadcast original identifier. -/
theorem stamped_frame_values (paths : List PathRow) (source_id target_id : String) :
    (∀ c ∈ dfSetCol (dfSetCol (pathsToDataFrame paths) "source_id"
          (Cell.str source_id)) "target_id" (Cell.str target_id),
        (c.1 = "source_id" → ∀ v ∈ c.2, v = Cell.str source_id)
        ∧ (c.1 = "target_id" → ∀ v ∈ c.2, v = Cell.str target_id)) := by
  intro c hc
  rw [stamped_frame_eq] at hc
  rcases List.mem_append.mp hc with h | h
  · have := pathsToDataFrame_names paths c h
    exact ⟨fun he => absurd he this.1, fun he => absurd he this.2⟩
  · rcases List.mem_cons.mp h with rfl | h2
    · refine ⟨fun _ v hv => List.eq_of_mem_replicate hv, fun he => ?_⟩
      simp at he
    · simp only [List.mem_singleton] at h2
      subst h2
      refine ⟨fun he => ?_, fun _ v hv => List.eq_of_mem_replicate hv⟩
      simp at he

/-- **C4.** Every row of a successfully returned record carries the original
`source_id` and `target_id` string arguments in its `source_id` / `target_id`
columns (not the resolved numeric ids); a caller-specified column list is
honoured exactly; with `columns = None` all fetched columns plus the two
stamps are returned. -/
theorem get_metapath_data_stamps_original_ids
    (nodes : List Node) (api : Int → Int → String → List PathRow)
    (source_id target_id metapath : String) (columns : Option (List String))
    (df : DataFrame)
    (h : get_metapath_data nodes api source_id target_id metapath columns = .ok df) :
    (∀ c ∈ df, c.1 = "source_id" → ∀ v ∈ c.2, v = Cell.str source_id)
    ∧ (∀ c ∈ df, c.1 = "target_id" → ∀ v ∈ c.2, v = Cell.str target_id)
    ∧ (∀ cols, columns = some cols → df.map (fun c => c.1) = cols)
    ∧ (columns = none → ∃ src tgt : Int,
        get_id_from_identifer nodes source_id = .ok src
        ∧ get_id_from_identifer nodes target_id = .ok tgt
        ∧ df.map (fun c => c.1)
            = (pathsToDataFrame (api src tgt metapath)).map (fun c => c.1)
              ++ ["source_id", "target_id"]) := by
  rcases hs : get_id_from_identifer nodes source_id with e | src
  · rw [get_metapath_data, hs] at h
    exact absurd h (by simp)
  · rcases ht : get_id_from_identifer nodes target_id with e | tgt
    · rw [get_metapath_data, hs, ht] at h
      exact absurd h (by simp)
    · rw [get_metapath_data, hs, ht] at h
      rcases columns with _ | cols
      · simp only [Except.ok.injEq] at h
        subst h
        refine ⟨fun c hc he => (stamped_frame_values _ _ _ c hc).1 he,
          fun c hc he => (stamped_frame_values _ _ _ c hc).2 he,
          fun cols hcols => by simp at hcols,
          fun _ => ⟨src, tgt, rfl, rfl, ?_⟩⟩
        rw [stamped_frame_eq]
        simp
      · simp only at h
        obtain ⟨hnames, hfrom⟩ := dfProject_ok_spec _ _ _ h
        refine ⟨?_, ?_, fun cols2 hcols2 => by
          cases hcols2
          exact hnames, fun habs => by cases habs⟩
        · intro c hc he
          obtain ⟨c2, hc2, hname, hvals⟩ := hfrom c hc
          rw [← hvals]
          exact (stamped_frame_values _ _ _ c2 hc2).1 (hname.trans he)
        · intro c hc he
          obtain ⟨c2, hc2, hname, hvals⟩ := hfrom c hc
          rw [← hvals]
          exact (stamped_frame_values _ _ _ c2 hc2).2 (hname.trans he)

/-- **C10.** When the path query returns zero rows, `get_metapath_data` with
`columns=None` returns an empty record whose only columns are `source_id` and
`target_id`; with a column list naming any path-statistic column it fails
with `KeyError` instead. -/
theorem get_metapath_data_empty_paths
    (nodes : List Node) (api : Int → Int → String → List PathRow)
    (source_id target_id metapath : String) (src tgt : Int)
    (hs : get_id_from_identifer nodes source_id = .ok src)
    (ht : get_id_from_identifer nodes target_id = .ok tgt)
    (hempty : api src tgt metapath = []) :
    get_metapath_data nodes api source_id target_id metapath none
        = .ok [("source_id", []), ("target_id", [])]
    ∧ (∀ cols : List String, (∃ c ∈ cols, c ≠ "source_id" ∧ c ≠ "target_id") →
        get_metapath_data nodes api source_id target_id metapath (some cols)
          = .error PyError.keyError) := by
  have hstamp : dfSetCol (dfSetCol (pathsToDataFrame (api src tgt metapath))
        "source_id" (Cell.str source_id)) "target_id" (Cell.str target_id)
      = [("source_id", []), ("target_id", [])] := by
    rw [hempty, stamped_frame_eq]
    rfl
  constructor
  · rw [get_metapath_data, hs, ht]
    simp only [hstamp]
  · intro cols ⟨c, hc, hcs, hct⟩
    rw [get_metapath_data, hs, ht]
    simp only [hstamp]
    apply dfProject_error_of_missing
    refine ⟨c, hc, ?_⟩
    rw [List.find?_eq_none]
    intro x hx
    rcases List.mem_cons.mp hx with rfl | hx2
    · simpa using fun he => hcs he.symm
    · simp only [List.mem_singleton] at hx2
      subst hx2
      simpa using fun he => hct he.symm

/-- A two-node graph for concrete evaluation. -/
def demoNodes : List Node := [⟨1, "S"⟩, ⟨2, "T"⟩]

/-- A single concrete path row. -/
def demoRow : PathRow := ⟨"AeGiGaD", [1, 2], [7], 1, 2, 3, 4, 5⟩

/-- A data source answering every query with the single demo row. -/
def demoApi : Int → Int → String → List PathRow := fun _ _ _ => [demoRow]

/-- A data source answering every query with zero path rows. -/
def demoApiEmpty : Int → Int → String → List PathRow := fun _ _ _ => []

/-- Witness for C4: a concrete fetch projected to
`["source_id", "target_id", "PDP", "DWPC"]` carries the original string ids
and exactly the requested columns. -/
theorem get_metapath_data_stamps_original_ids_witness :
    (∀ c ∈ ([("source_id", [Cell.str "S"]), ("target_id", [Cell.str "T"]),
          ("PDP", [Cell.num 1]), ("DWPC", [Cell.num 5])] : DataFrame),
        c.1 = "source_id" → ∀ v ∈ c.2, v = Cell.str "S")
    ∧ (∀ c ∈ ([("source_id", [Cell.str "S"]), ("target_id", [Cell.str "T"]),
          ("PDP", [Cell.num 1]), ("DWPC", [Cell.num 5])] : DataFrame),
        c.1 = "target_id" → ∀ v ∈ c.2, v = Cell.str "T")
    ∧ (∀ cols, some ["source_id", "target_id", "PDP", "DWPC"] = some cols →
        ([("source_id", [Cell.str "S"]), ("target_id", [Cell.str "T"]),
          ("PDP", [Cell.num 1]), ("DWPC", [Cell.num 5])] : DataFrame).map
            (fun c => c.1) = cols)
    ∧ (some ["source_id", "target_id", "PDP", "DWPC"] = none → ∃ src tgt : Int,
        get_id_from_identifer demoNodes "S" = .ok src
        ∧ get_id_from_identifer demoNodes "T" = .ok tgt
        ∧ ([("source_id", [Cell.str "S"]), ("target_id", [Cell.str "T"]),
            ("PDP", [Cell.num 1]), ("DWPC", [Cell.num 5])] : DataFrame).map
              (fun c => c.1)
            = (pathsToDataFrame (demoApi src tgt "AeGiGaD")).map (fun c => c.1)
              ++ ["source_id", "target_id"]) :=
  get_metapath_data_stamps_original_ids demoNodes demoApi "S" "T" "AeGiGaD"
    (some ["source_id", "target_id", "PDP", "DWPC"])
    [("source_id", [Cell.str "S"]), ("target_id", [Cell.str "T"]),
     ("PDP", [Cell.num 1]), ("DWPC", [Cell.num 5])] rfl

/-- Witness for C10: a fetch with zero path rows returns the bare two-column
empty record under `columns=None` and raises `KeyError` when `PDP` is
requested. -/
theorem get_metapath_data_empty_paths_witness :
    get_metapath_data demoNodes demoApiEmpty "S" "T" "AeGiGaD" none
        = .ok [("source_id", []), ("target_id", [])]
    ∧ get_metapath_data demoNodes demoApiEmpty "S" "T" "AeGiGaD" (some ["PDP"])
        = .error PyError.keyError :=
  ⟨(get_metapath_data_empty_paths demoNodes demoApiEmpty "S" "T" "AeGiGaD"
      1 2 rfl rfl rfl).1,
   (get_metapath_data_empty_paths demoNodes demoApiEmpty "S" "T" "AeGiGaD"
      1 2 rfl rfl rfl).2 ["PDP"] ⟨"PDP", by simp, by decide, by decide⟩⟩

/-! ## The chunk-processing loop of `gather_subset_data_metapath_BPpGdAdG.py`

```
for chunk_table in process_in_chunks_for_bioprocs_genes_and_metapaths(...):
    results = Parallel(...)(...)
    table.add(pd.concat(results))
    count += 1
    # temporary break for feedback / testing
    break
```

The body ends in an unconditional `break`, so the loop handles the first
chunk only. -/

/-- The chunks actually handled by the driver loop: the first one, because of
the unconditional `break` at the end of the loop body. -/
def processedChunks (chunks : List ChunkTable) : List ChunkTable :=
  match chunks with
  | [] => []
  | c :: _ => [c]

/-- **C6 (refuting).** With 1 source, 4 targets, 1 metapath and
`chunk_size = 3`, the chunker yields 2 batches but the driver loop handles
only 1: the unconditional `break` silently skips the second batch with no
configuration cap in sight. -/
theorem chunk_loop_break_skips_batches :
    Except.map (fun cs => cs.length)
        (process_in_chunks_for_bioprocs_genes_and_metapaths
          (generate_combinations_for_bioprocs_genes_and_metapaths
            [PyVal.vStr "b1"]
            [PyVal.vStr "g1", PyVal.vStr "g2", PyVal.vStr "g3", PyVal.vStr "g4"]
            [PyVal.vStr "m1"]) 3)
      = .ok 2
    ∧ Except.map (fun cs => (processedChunks cs).length)
        (process_in_chunks_for_bioprocs_genes_and_metapaths
          (generate_combinations_for_bioprocs_genes_and_metapaths
            [PyVal.vStr "b1"]
            [PyVal.vStr "g1", PyVal.vStr "g2", PyVal.vStr "g3", PyVal.vStr "g4"]
            [PyVal.vStr "m1"]) 3)
      = .ok 1 :=
  ⟨rfl, rfl⟩

/-! ## The per-batch parallel dispatch

`Parallel(n_jobs=3, backend="threading")(delayed(f)(...) for ... in zip(...))`
runs one task per triple of the chunk. Modelled from the spec: the joblib
backend is external code; per its contract the result list has the result of
task `i` at slot `i`, however the tasks interleave. `runSchedule` runs the
tasks in an arbitrary completion order; `gatherResults` fills the slots. -/

/-- Execute the batch's tasks in the completion order `order` (a permutation
of the task indices): the completion log, in completion order. -/
def runSchedule (order : List Nat) (tasks : List α) (f : α → DataFrame) :
    List (Nat × DataFrame) :=
  order.filterMap fun i => (tasks[i]?).map fun t => (i, f t)

/-- Collect each slot's result from the completion log (slot `i` receives the
result of task `i`, whatever its completion position). -/
def gatherResults (n : Nat) (completions : List (Nat × DataFrame)) :
    List (Option DataFrame) :=
  (List.range n).map fun i => (completions.find? fun p => p.1 == i).map fun p => p.2

theorem find?_runSchedule (tasks : List α) (f : α → DataFrame) (order : List Nat)
    (hb : ∀ j ∈ order, j < tasks.length) (i : Nat) (hi : i ∈ order)
    (h : i < tasks.length) :
    (runSchedule order tasks f).find? (fun p => p.1 == i)
      = some (i, f (tasks.get ⟨i, h⟩)) := by
  induction order with
  | nil => simp at hi
  | cons j rest ih =>
    have hj : j < tasks.length := hb j (List.mem_cons_self j rest)
    rw [runSchedule, List.filterMap_cons, List.getElem?_eq_getElem hj]
    simp only [Option.map_some']
    by_cases hij : j = i
    · subst hij
      rw [List.find?_cons_of_pos _ (by simp)]
      rfl
    · rw [List.find?_cons_of_neg _ (by simpa using hij)]
      have hi2 : i ∈ rest := by
        rcases List.mem_cons.mp hi with rfl | hi2
        · exact absurd rfl hij
        · exact hi2
      exact ih (fun x hx => hb x (List.mem_cons_of_mem j hx)) hi2

/-- **C7.** Whatever the completion order of the concurrent per-triple
fetches, the aggregated per-batch result lists the per-triple results in
exactly the input order of the batch's triples. -/
theorem parallel_fetch_preserves_input_order
    (tasks : List StrTriple) (f : StrTriple → DataFrame) (order : List Nat)
    (hperm : order.Perm (List.range tasks.length)) :
    gatherResults tasks.length (runSchedule order tasks f)
      = tasks.map (fun t => some (f t)) := by
  apply List.ext_getElem?
  intro i
  by_cases hi : i < tasks.length
  · rw [gatherResults, List.getElem?_map, List.getElem?_range hi]
    simp only [Option.map_some']
    have hb : ∀ j ∈ order, j < tasks.length := fun j hj =>
      List.mem_range.mp (hperm.mem_iff.mp hj)
    have hio : i ∈ order := hperm.mem_iff.mpr (List.mem_range.mpr hi)
    rw [find?_runSchedule tasks f order hb i hio hi]
    rw [List.getElem?_map, List.getElem?_eq_getElem hi]
    rfl
  · rw [List.getElem?_eq_none (by simpa [gatherResults] using Nat.le_of_not_lt hi),
      List.getElem?_eq_none (by simpa using Nat.le_of_not_lt hi)]

/-- Witness for C7: three triples completing in order 2, 0, 1 still aggregate
in input order. -/
theorem parallel_fetch_preserves_input_order_witness :
    gatherResults 3 (runSchedule [2, 0, 1]
        [("b1", "g1", "m1"), ("b1", "g2", "m1"), ("b1", "g3", "m1")]
        (fun t => [("source_id", [Cell.str t.1]), ("target_id", [Cell.str t.2.1])]))
      = [some [("source_id", [Cell.str "b1"]), ("target_id", [Cell.str "g1"])],
         some [("source_id", [Cell.str "b1"]), ("target_id", [Cell.str "g2"])],
         some [("source_id", [Cell.str "b1"]), ("target_id", [Cell.str "g3"])]] :=
  parallel_fetch_preserves_input_order
    [("b1", "g1", "m1"), ("b1", "g2", "m1"), ("b1", "g3", "m1")]
    (fun t => [("source_id", [Cell.str t.1]), ("target_id", [Cell.str t.2.1])])
    [2, 0, 1] (by decide)

/-! ## The Result Sink

Modelled from the spec: the persistent table is a lancedb table (external
code, not under `src/`), used through `db.create_table(name, schema=...,
mode="overwrite")`, `table.add(df)` and `table.count_rows()`. Per the spec's
Result Sink contract, `add` appends all rows of a batch whose column set
matches the established schema and rejects a mismatched batch with a schema
error, leaving the table unchanged. -/

/-- The persistent columnar table: its schema (column names) and rows. -/
structure SinkTable where
  schema : List String
  rows : List (List Cell)
deriving DecidableEq, Repr

/-- `db.create_table(name, schema=..., mode="overwrite")`: a fresh empty
table with the given schema. -/
def create_table (schema : List String) : SinkTable := ⟨schema, []⟩

/-- `table.add(batch)`: append the batch's rows when its column set matches
the schema; otherwise fail with a schema-mismatch error. -/
def table_add (t : SinkTable) (cols : List String) (newRows : List (List Cell)) :
    Except PyError SinkTable :=
  if cols = t.schema then .ok ⟨t.schema, t.rows ++ newRows⟩
  else .error PyError.schemaMismatch

/-- The persistent table after an `add` call: updated on success, unchanged
when the call raises. -/
def table_add_state (t : SinkTable) (cols : List String)
    (newRows : List (List Cell)) : SinkTable :=
  match table_add t cols newRows with
  | .ok t2 => t2
  | .error _ => t

/-- `table.count_rows()`. -/
def count_rows (t : SinkTable) : Nat := t.rows.length

/-- **C8.** After initialization, two sequential appends of `r1` and `r2`
rows leave exactly `r1 + r2` rows, with the prior rows preserved in place;
an append with a mismatched column set fails with a schema-mismatch error
and leaves the row count unchanged. -/
theorem result_sink_appends_additive (schema : List String)
    (r1 r2 : List (List Cell)) (t1 t2 : SinkTable)
    (h1 : table_add (create_table schema) schema r1 = .ok t1)
    (h2 : table_add t1 schema r2 = .ok t2) :
    (count_rows t2 = r1.length + r2.length
      ∧ t2.rows = r1 ++ r2)
    ∧ (∀ (t : SinkTable) (cols : List String) (rows2 : List (List Cell)),
        cols ≠ t.schema →
          table_add t cols rows2 = .error PyError.schemaMismatch
          ∧ count_rows (table_add_state t cols rows2) = count_rows t) := by
  rw [table_add, create_table, if_pos rfl] at h1
  simp only [Except.ok.injEq] at h1
  subst h1
  rw [table_add, if_pos rfl] at h2
  simp only [Except.ok.injEq] at h2
  subst h2
  refine ⟨⟨by simp [count_rows], by simp⟩, ?_⟩
  intro t cols rows2 hne
  have hadd : table_add t cols rows2 = .error PyError.schemaMismatch := by
    rw [table_add, if_neg hne]
  exact ⟨hadd, by rw [table_add_state, hadd]⟩

/-- Witness for C8: appends of 2 and 3 single-cell rows give 5 rows; a
mismatched column set is rejected and the count stays 5. -/
theorem result_sink_appends_additive_witness :
    (count_rows ⟨["a"], [[Cell.num 1], [Cell.num 2], [Cell.num 3], [Cell.num 4],
        [Cell.num 5]]⟩ = 2 + 3
      ∧ ([[Cell.num 1], [Cell.num 2], [Cell.num 3], [Cell.num 4], [Cell.num 5]]
          : List (List Cell))
        = [[Cell.num 1], [Cell.num 2]] ++ [[Cell.num 3], [Cell.num 4], [Cell.num 5]])
    ∧ (∀ (t : SinkTable) (cols : List String) (rows2 : List (List Cell)),
        cols ≠ t.schema →
          table_add t cols rows2 = .error PyError.schemaMismatch
          ∧ count_rows (table_add_state t cols rows2) = count_rows t) :=
  result_sink_appends_additive ["a"]
    [[Cell.num 1], [Cell.num 2]] [[Cell.num 3], [Cell.num 4], [Cell.num 5]]
    ⟨["a"], [[Cell.num 1], [Cell.num 2]]⟩
    ⟨["a"], [[Cell.num 1], [Cell.num 2], [Cell.num 3], [Cell.num 4], [Cell.num 5]]⟩
    rfl rfl

end Hetionet
